import Mathlib

/-!
Verification development for the Yandex business-listing crawler.

The Lean definitions below are a shallow embedding of the Python source:

* `src/utils.py`                — `extract_phones`, `RateLimiter`
* `src/pacser_maps.py`          — `Organization`, `_normalize_phone`,
                                  `_collect_organizations` (panel strategy)
* `src/yandex_maps_scraper.py`  — `_collect_organizations` (older panel variant)
* `src/parser_search.py`        — `parse_serp_cards` (carousel strategy),
                                  link/oid helpers
* `src/captcha_utils.py`        — `wait_captcha_resolved`
* `src/app/filters.py`          — `passes_potential_filters` and helpers

Pure helper functions are translated directly.  Loops that interact with a
live browser page are embedded as recursive functions over a finite trace of
the observations the loop would make (the DOM values read, the state of the
stop/pause/resume signals at each poll); each per-iteration decision is the
one the Python body takes on those observations.
-/

/-! ### Python string primitives

Character-level models of the Python `str` operations the program uses.
Python's `str.lower` is full Unicode; the program only ever manipulates
ASCII and Russian Cyrillic text, so the embedding covers exactly those
alphabets: ASCII `A`-`Z`, Cyrillic `А`-`Я` (U+0410..U+042F) and `Ё` (U+0401).
-/

def pyLower (c : Char) : Char :=
  if 'A' ≤ c ∧ c ≤ 'Z' then Char.ofNat (c.toNat + 32)
  else if 0x410 ≤ c.toNat ∧ c.toNat ≤ 0x42F then Char.ofNat (c.toNat + 0x20)
  else if c.toNat = 0x401 then Char.ofNat 0x451
  else c

def pyLowerStr (s : String) : String :=
  String.mk (s.data.map pyLower)

/-- Python `str.isspace` / regex `\s` over the relevant character set:
space, tab, newline, carriage return, vertical tab, form feed. -/
def isPySpace (c : Char) : Bool :=
  c = ' ' ∨ c = '\t' ∨ c = '\n' ∨ c = '\r' ∨ c.toNat = 0x0b ∨ c.toNat = 0x0c

/-- Python `str.strip()` on the character list. -/
def stripChars (l : List Char) : List Char :=
  ((l.dropWhile isPySpace).reverse.dropWhile isPySpace).reverse

/-- Python `s.strip()`. -/
def pyStrip (s : String) : String :=
  String.mk (stripChars s.data)

/-- Python truth-y string choice: `a or b`. -/
def pyOrStr (a b : String) : String :=
  if a = "" then b else a

/-- Regex `\w` (word character) over ASCII plus Cyrillic: letters, digits
and underscore, as Python's Unicode-aware `\b` sees the program's data. -/
def isWordChar (c : Char) : Bool :=
  c.isAlphanum ∨ c = '_' ∨ (0x410 ≤ c.toNat ∧ c.toNat ≤ 0x44F) ∨
    c.toNat = 0x401 ∨ c.toNat = 0x451

/-- Contiguous-substring test: Python `needle in hay` for strings. -/
def substrIn (needle : List Char) : List Char → Bool
  | [] => needle.isEmpty
  | c :: rest => needle.isPrefixOf (c :: rest) || substrIn needle rest

/-- `strIn needle hay` is Python `needle in hay`. -/
def strIn (needle hay : String) : Bool :=
  substrIn needle.data hay.data

/-- Collapse every maximal run of whitespace into a single space:
`re.sub(r"\s+", " ", s)`.  The flag records whether the previous character
was part of a whitespace run already replaced. -/
def squeezeAux : Bool → List Char → List Char
  | _, [] => []
  | prevSpace, c :: cs =>
    if isPySpace c then
      if prevSpace then squeezeAux true cs else ' ' :: squeezeAux true cs
    else c :: squeezeAux false cs

def squeezeSpaces (l : List Char) : List Char :=
  squeezeAux false l

/-- Does the list start with a non-word character (or is it empty)?  This is
the "word boundary holds after the match" test of the regexes below. -/
def headNonWord : List Char → Bool
  | [] => true
  | c :: _ => ! isWordChar c

/-- `re.sub(r"\b(?:no|n)\b", " ", s)` from `_normalize_text` in
`src/app/filters.py`.  The Boolean argument records whether the character
just before the current scan position is a word character (no match can
start after a word character because of the leading `\b`).  The regex engine
tries the alternative `no` before `n`; a lone `n` followed by `o` never
matches because the trailing `\b` would sit between two word characters. -/
def subNoN : Bool → List Char → List Char
  | _, [] => []
  | false, 'n' :: 'o' :: rest =>
    if headNonWord rest then ' ' :: subNoN true rest
    else 'n' :: 'o' :: subNoN true rest
  | false, 'n' :: cs =>
    if headNonWord cs then ' ' :: subNoN true cs
    else 'n' :: subNoN true cs
  | _, c :: cs => c :: subNoN (isWordChar c) cs

/-- Characters of the first character class replaced by spaces in
`_normalize_text`: dot, hyphen, slash, backslash, double quote, apostrophe
and the four typographic quote characters. -/
def normPunctChars : List Char :=
  ['.', '-', '/', Char.ofNat 92, '"', Char.ofNat 39, '“', '”', '«', '»']

/-- `_normalize_text` from `src/app/filters.py`: lower-case, `ё`→`е`,
punctuation and `№` to spaces, drop standalone `no`/`n` tokens, collapse
whitespace, strip. -/
def _normalize_text (value : String) : String :=
  if value = "" then ""
  else
    let l := value.data.map pyLower
    let l := l.map (fun c => if c = 'ё' then 'е' else c)
    let l := l.map (fun c => if normPunctChars.contains c then ' ' else c)
    let l := l.map (fun c => if c = '№' then ' ' else c)
    let l := subNoN false l
    let l := squeezeSpaces l
    String.mk (stripChars l)

/-- Python `s.split(sep)` for a one-character separator, on character
lists: every occurrence of the separator ends a piece, so `n` separators
yield `n + 1` pieces, empties included. -/
def splitOnChar (sep : Char) : List Char → List (List Char)
  | [] => [[]]
  | c :: cs =>
    if c = sep then [] :: splitOnChar sep cs
    else
      match splitOnChar sep cs with
      | [] => [[c]]
      | h :: t => (c :: h) :: t

/-- Python `", ".join(items)`. -/
def joinCommaSpace : List String → String
  | [] => ""
  | [s] => s
  | s :: rest => s ++ ", " ++ joinCommaSpace rest

/-- `_parse_list` from `src/app/filters.py`: split a comma-separated option
string, strip and lower-case each part, drop empties. -/
def _parse_list (value : String) : List String :=
  if value = "" then []
  else
    ((splitOnChar ',' value.data).map
        (fun p => String.mk ((stripChars p).map pyLower))).filter
      (fun s => s ≠ "")

/-! ### Python `float()` on decimal literals

`_get_rating` calls `float(str(value).replace(",", "."))` and treats a
`ValueError` as "no rating".  The embedding models the decimal fragment of
Python's float grammar — optional surrounding whitespace, optional sign,
digits with an optional fractional part, optional exponent — as an exact
rational (the ratings handled here are short decimal strings, for which
ordering of the exact values and of the doubles agree).  Strings outside
this fragment parse to `none`, matching the `except` branch. -/

def digitsToNat (l : List Char) : Nat :=
  l.foldl (fun a c => a * 10 + (c.toNat - 48)) 0

/-- Parse the exponent part `e`/`E` with optional sign, returning the
signed decimal exponent; `none` when the trailing characters are not a
well-formed exponent (which makes the whole `float()` call raise). -/
def parseExponent (l : List Char) : Option Int :=
  match l with
  | [] => some 0
  | c :: t =>
    if c = 'e' ∨ c = 'E' then
      let signed : Bool × List Char :=
        match t with
        | '+' :: u => (false, u)
        | '-' :: u => (true, u)
        | _ => (false, t)
      let ed := signed.2.takeWhile Char.isDigit
      let rest := signed.2.dropWhile Char.isDigit
      if ed = [] ∨ rest ≠ [] then none
      else if signed.1 then some (-(digitsToNat ed : Int))
      else some ((digitsToNat ed : Int))
    else none

def pyFloat (s : String) : Option ℚ :=
  let l := stripChars s.data
  let signed : Bool × List Char :=
    match l with
    | '+' :: t => (false, t)
    | '-' :: t => (true, t)
    | _ => (false, l)
  let ip := signed.2.takeWhile Char.isDigit
  let rest := signed.2.dropWhile Char.isDigit
  let frac : Option (List Char) × List Char :=
    match rest with
    | '.' :: t => (some (t.takeWhile Char.isDigit), t.dropWhile Char.isDigit)
    | _ => (none, rest)
  if ip = [] ∧ (frac.1 = none ∨ frac.1 = some []) then none
  else
    let fracDigits := match frac.1 with | some f => f | none => []
    let num : Nat := digitsToNat ip * 10 ^ fracDigits.length + digitsToNat fracDigits
    let den : Nat := 10 ^ fracDigits.length
    match parseExponent frac.2 with
    | none => none
    | some e =>
      let scaled : Nat × Nat :=
        if 0 ≤ e then (num * 10 ^ e.toNat, den) else (num, den * 10 ^ (-e).toNat)
      some (mkRat (if signed.1 then -(scaled.1 : Int) else (scaled.1 : Int)) scaled.2)

/-! ### `src/app/filters.py` — the filter pipeline

A record reaches the filters either as a `dict` or as an `Organization`
object; `_get_attr` reads a named field from either shape and turns missing
or false-y values into `""`.  The embedding models a record as its field
lookup function `Row := String → String` — this is exactly the observable
interface the duck-typed accessor gives the pipeline. -/

def Row : Type := String → String

def NONCOMMERCIAL_KEYWORDS : List String :=
  ["школа", "детский сад", "садик", "университет", "колледж", "техникум",
   "больница", "поликлиника", "мфц", "администрация", "муницип", "гос",
   "государ", "библиотека", "музей", "загс", "налоговая", "паспортный",
   "соц", "центр занятости"]

def PRIVATE_EXCEPTION_KEYWORDS : List String :=
  ["детский сад", "ясли", "школа", "лицей", "гимназия", "колледж",
   "техникум", "институт", "университет", "академия", "училище", "пту",
   "дополнительное образование", "музыкальная школа", "художественная школа"]

def EDU_OWNER_KEYWORDS : List String :=
  ["мбоу", "маоу", "мкоу", "гбоу"]

def EDU_TYPE_KEYWORDS : List String :=
  ["сош", "доу", "лицей", "гимназия"]

def PRIVATE_MARKER : String := "частн"

def SCHOOL_ABBREV_LITERALS : List String :=
  ["сош", "гсош", "мсош"]

/-- Attempt of `SCHOOL_ABBREVIATION_PATTERN` at the current position (the
leading word boundary is checked by the caller): one of the literals, then
optional whitespace, then a digit. -/
def schoolAbbrevAt (l : List Char) : Bool :=
  SCHOOL_ABBREV_LITERALS.any (fun lit =>
    lit.data.isPrefixOf l &&
      (match (l.drop lit.length).dropWhile isPySpace with
       | d :: _ => d.isDigit
       | [] => false))

/-- Scan of `SCHOOL_ABBREVIATION_PATTERN.search`: try the pattern at every
position whose preceding character is not a word character. -/
def schoolAbbrevSearch : Bool → List Char → Bool
  | _, [] => false
  | prevW, c :: cs =>
    (!prevW && schoolAbbrevAt (c :: cs)) || schoolAbbrevSearch (isWordChar c) cs

/-- `_get_attr` from `src/app/filters.py`: duck-typed field access with
missing and false-y values collapsed to the empty string (the `Row`
function already yields the post-collapse value). -/
def _get_attr (row : Row) (name : String) : String :=
  row name

/-- `_get_rating` from `src/app/filters.py`. -/
def _get_rating (row : Row) : Option ℚ :=
  let value := row "rating"
  if value = "" then none
  else pyFloat (String.mk (value.data.map (fun c => if c = ',' then '.' else c)))

/-- `is_noncommercial` from `src/app/filters.py`. -/
def is_noncommercial (row : Row) : Bool :=
  let name := _normalize_text (_get_attr row "name")
  if name = "" then false
  else NONCOMMERCIAL_KEYWORDS.any (fun keyword => strIn keyword name)

/-- `is_private_exception` from `src/app/filters.py`. -/
def is_private_exception (name : String) : Bool :=
  if !strIn PRIVATE_MARKER name then false
  else PRIVATE_EXCEPTION_KEYWORDS.any (fun keyword => strIn keyword name)

/-- `has_school_abbreviation` from `src/app/filters.py`. -/
def has_school_abbreviation (name : String) : Bool :=
  schoolAbbrevSearch false name.data ||
    (EDU_OWNER_KEYWORDS.any (fun owner => strIn owner name) &&
      EDU_TYPE_KEYWORDS.any (fun keyword => strIn keyword name))

/-- The filter options read by `passes_potential_filters`
(`settings.potential_filters`).  The field set is exactly the one the code
accesses; `app/settings_model.py` itself is outside the embedded core
(spec §3, `FilterSettings`). -/
structure PotentialFilters where
  white_list : String
  stop_words : String
  exclude_no_phone : Bool
  require_checkmark : Bool
  exclude_good_place : Bool
  exclude_noncommercial : Bool
  max_rating : Option ℚ

structure Settings where
  potential_filters : PotentialFilters

def CHECKMARK_VALUES : List String := ["синяя", "зелёная", "зеленая"]

/-- `passes_potential_filters` from `src/app/filters.py`: the ordered rule
chain — white list, stop words (with the school-abbreviation pattern and the
private-institution exception), phone, checkmark, good place, rating,
noncommercial.  The first failing rule rejects. -/
def passes_potential_filters (row : Row) (settings : Settings) : Bool :=
  let filters := settings.potential_filters
  let raw_name := _get_attr row "name"
  let name := _normalize_text raw_name
  let phone := pyOrStr (_get_attr row "phone") (_get_attr row "phones")
  let check_mark :=
    pyLowerStr (pyOrStr (_get_attr row "check_mark") (_get_attr row "verified"))
  let good_place := pyOrStr (_get_attr row "good_place") (_get_attr row "award")
  let rating := _get_rating row
  let private_exception := is_private_exception name
  let white_list := _parse_list filters.white_list
  if !white_list.isEmpty && !white_list.any (fun word => strIn word name) then
    false
  else
    let stop_words := (_parse_list filters.stop_words).map _normalize_text
    if !stop_words.isEmpty &&
        (stop_words.any (fun word => strIn word name) ||
          has_school_abbreviation name) &&
        !private_exception then
      false
    else if filters.exclude_no_phone && pyStrip phone = "" then false
    else if filters.require_checkmark && !CHECKMARK_VALUES.contains check_mark then
      false
    else if filters.exclude_good_place && pyStrip good_place ≠ "" then false
    else if (match filters.max_rating, rating with
             | some m, some r => decide (r > m)
             | _, _ => false) then
      false
    else if filters.exclude_noncommercial && is_noncommercial row &&
        !private_exception then
      false
    else true

/-! ### `src/utils.py` — `extract_phones` and `PHONE_RE`

The pattern is a literal `7` optionally preceded by `+`, or a literal `8`,
followed by ten further digits with arbitrary non-digit characters between
them.  Because the quantified groups consume greedily up to the next digit,
each successful attempt deterministically ends at the tenth digit after the
lead, and `findall` scans positions left to right, resuming after each
match.  `takeDigits n l` consumes the next `n` digits of `l` (skipping
non-digits) and returns them together with the remainder after the last
consumed digit, or `none` when fewer than `n` digits remain. -/

def takeDigits (n : Nat) : List Char → Option (List Char × List Char)
  | [] => if n = 0 then some ([], []) else none
  | c :: cs =>
    if n = 0 then some ([], c :: cs)
    else if c.isDigit then
      (takeDigits (n - 1) cs).map (fun p => (c :: p.1, p.2))
    else takeDigits n cs

/-- One `findall` scan step for `PHONE_RE`, fuel-bounded so that the
definition reduces in the kernel; each returned match is represented by the
digit sequence `re.sub(r"\D", "", match)` the caller extracts (lead digit
plus the ten following digits).  Any fuel of at least the length of the
input list is enough, since every recursive call strictly shortens it. -/
def findPhonesAux : Nat → List Char → List (List Char)
  | 0, _ => []
  | _ + 1, [] => []
  | fuel + 1, c :: cs =>
    if c = '+' ∧ cs.head? = some '7' then
      match takeDigits 10 cs.tail with
      | some (ds, rest) => ('7' :: ds) :: findPhonesAux fuel rest
      | none => findPhonesAux fuel cs
    else if c = '7' ∨ c = '8' then
      match takeDigits 10 cs with
      | some (ds, rest) => (c :: ds) :: findPhonesAux fuel rest
      | none => findPhonesAux fuel cs
    else findPhonesAux fuel cs

/-- Digit sequences of the `PHONE_RE.findall` matches in a string. -/
def findPhoneMatches (s : String) : List (List Char) :=
  findPhonesAux (s.data.length + 1) s.data

/-- The per-match body of `extract_phones`: rewrite a leading `8` to `7`,
prefix a bare ten-digit match with `7`, keep only eleven-digit results, and
format with a leading `+`. -/
def normalizeMatch (ds : List Char) : Option String :=
  let ds2 :=
    if ds.length = 11 ∧ ds.head? = some '8' then '7' :: ds.tail
    else if ds.length = 10 then '7' :: ds
    else ds
  if ds2.length = 11 then some (String.mk ('+' :: ds2)) else none

/-- `extract_phones` from `src/utils.py`: all matches, normalized, with
order-preserving deduplication. -/
def phoneFoldStep (phones : List String) (ds : List Char) : List String :=
  match normalizeMatch ds with
  | some formatted =>
    if formatted ∈ phones then phones else phones ++ [formatted]
  | none => phones

def extract_phones (text : String) : List String :=
  if text = "" then []
  else (findPhoneMatches text).foldl phoneFoldStep []

/-- The regular expression of spec §8, `^\+7\d{10}$`, as a predicate. -/
def matchesPlusSevenPhone (s : String) : Bool :=
  match s.data with
  | '+' :: '7' :: ds => ds.length = 10 && ds.all Char.isDigit
  | _ => false

/-! ### `src/pacser_maps.py` — `Organization` and `_normalize_phone` -/

structure Organization where
  name : String := ""
  phone : String := ""
  verified : String := ""
  award : String := ""
  vk : String := ""
  telegram : String := ""
  whatsapp : String := ""
  website : String := ""
  card_url : String := ""
  rating : String := ""
  rating_count : String := ""
deriving DecidableEq, Repr

/-- `YandexMapsScraper._normalize_phone` from `src/pacser_maps.py`: keep the
digits of the raw card text; accept exactly eleven digits starting with `7`
or `8`, rewrite a leading `8` to `7`, format with `+`. -/
def _normalize_phone (raw_phone : String) : String :=
  let digits := raw_phone.data.filter Char.isDigit
  if digits.length ≠ 11 ∨ (digits.head? ≠ some '7' ∧ digits.head? ≠ some '8') then
    ""
  else if digits.head? = some '8' then String.mk ('+' :: '7' :: digits.tail)
  else String.mk ('+' :: digits)

/-! ### `src/parser_search.py` — link and oid helpers -/

/-- Python `href.replace("&amp;", "&")`: left-to-right, non-overlapping. -/
def replaceAmp : List Char → List Char
  | [] => []
  | '&' :: 'a' :: 'm' :: 'p' :: ';' :: rest => '&' :: replaceAmp rest
  | c :: cs => c :: replaceAmp cs

/-- `_normalize_href` from `src/parser_search.py`. -/
def _normalize_href (href : String) : String :=
  if href = "" then ""
  else
    let href := String.mk (replaceAmp href.data)
    if ("/").data.isPrefixOf href.data then "https://yandex.ru" ++ href
    else href

/-- Result of `urllib.parse.urlsplit` restricted to the parts this program
reads (scheme, netloc, path, query; the fragment is discarded). -/
structure UrlParts where
  scheme : String
  netloc : String
  path : String
  query : String
deriving DecidableEq, Repr

/-- Is this a valid URL scheme body (`[A-Za-z][A-Za-z0-9+.-]*`)? -/
def validScheme : List Char → Bool
  | [] => false
  | c :: cs =>
    c.isAlpha && cs.all (fun d => d.isAlphanum ∨ d = '+' ∨ d = '.' ∨ d = '-')

/-- Split off everything up to the first occurrence of a character. -/
def takeUntilChar (stop : Char) : List Char → List Char
  | [] => []
  | c :: cs => if c = stop then [] else c :: takeUntilChar stop cs

/-- Drop everything up to and including the first occurrence of a
character; the whole list is dropped when the character does not occur. -/
def dropThroughChar (stop : Char) : List Char → List Char
  | [] => []
  | c :: cs => if c = stop then cs else dropThroughChar stop cs

/-- Does the character occur in the list? -/
def hasChar (stop : Char) (l : List Char) : Bool :=
  l.contains stop

/-- `urllib.parse.urlsplit` on the URL shapes this program handles:
an optional `scheme:` (lower-cased), a `//netloc` part when present, then
path, `?query` and a discarded `#fragment`.  Percent-escapes are kept
verbatim, as `urlsplit` keeps them. -/
def urlsplitParts (url : String) : UrlParts :=
  let l := takeUntilChar '#' url.data
  let beforeColon := takeUntilChar ':' l
  let schemed : List Char × List Char :=
    if hasChar ':' l ∧ validScheme beforeColon then
      (beforeColon.map pyLower, dropThroughChar ':' l)
    else ([], l)
  let rest := schemed.2
  let netlocd : List Char × List Char :=
    match rest with
    | '/' :: '/' :: r =>
      (r.takeWhile (fun c => c ≠ '/' ∧ c ≠ '?'),
        r.dropWhile (fun c => c ≠ '/' ∧ c ≠ '?'))
    | _ => ([], rest)
  let path := takeUntilChar '?' netlocd.2
  let query := dropThroughChar '?' netlocd.2
  ⟨String.mk schemed.1, String.mk netlocd.1, String.mk path, String.mk query⟩

/-- `_strip_profile_link` from `src/parser_search.py`: canonicalize a
`yandex.ru/profile/<oid>` link to scheme, host and the first two path
segments, dropping query and fragment; other links pass through. -/
def _strip_profile_link (href : String) : String :=
  if href = "" then ""
  else
    let href := _normalize_href href
    let parsed := urlsplitParts href
    if strIn "yandex.ru" parsed.netloc &&
        ("/profile/").data.isPrefixOf parsed.path.data then
      let parts := splitOnChar '/' parsed.path.data
      let clean_path :=
        if 3 ≤ parts.length ∧ parts.get? 2 ≠ some [] ∧ parts.get? 2 ≠ none then
          String.mk (List.intercalate ['/'] (parts.take 3))
        else parsed.path
      let scheme := pyOrStr parsed.scheme "https"
      let netloc := pyOrStr parsed.netloc "yandex.ru"
      scheme ++ "://" ++ netloc ++ clean_path
    else href

/-- First value of the `oid` key under `urllib.parse.parse_qs` semantics:
pairs are split on `&`, a pair must contain `=`, and pairs with an empty
value are dropped (`keep_blank_values` is false).  Percent-decoding is not
modelled; the oids handled here are plain alphanumerics. -/
def queryOid (query : String) : String :=
  let pairs := splitOnChar '&' query.data
  let firstOid := pairs.filter (fun p =>
    (takeUntilChar '=' p = ("oid").data) ∧ hasChar '=' p ∧
      dropThroughChar '=' p ≠ [])
  match firstOid with
  | [] => ""
  | p :: _ => String.mk (dropThroughChar '=' p)

/-- `_extract_oid_from_href` from `src/parser_search.py`: the canonical
identifier is the second path segment of a `/profile/` link, or else the
`oid` query parameter (stripped to the part after a `:` prefix). -/
def _extract_oid_from_href (href : String) : String :=
  let href := _normalize_href href
  if href = "" then ""
  else
    let parsed := urlsplitParts href
    let fromPath :=
      if ("/profile/").data.isPrefixOf parsed.path.data then
        let parts := splitOnChar '/' parsed.path.data
        if 3 ≤ parts.length ∧ parts.get? 2 ≠ some [] ∧ parts.get? 2 ≠ none then
          String.mk ((parts.get? 2).getD [])
        else ""
      else ""
    if fromPath ≠ "" then fromPath
    else
      let oid_val := queryOid parsed.query
      if oid_val ≠ "" then
        if hasChar ':' oid_val.data then String.mk (dropThroughChar ':' oid_val.data)
        else oid_val
      else ""

/-- `_build_profile_url` from `src/parser_search.py`. -/
def _build_profile_url (oid : String) : String :=
  if oid = "" then "" else "https://yandex.ru/profile/" ++ oid

/-! ### `src/captcha_utils.py` — `wait_captcha_resolved`

The resolution loop polls until either the external stop event is set or
the captcha is observed to be gone; there is no other exit.  One loop
iteration observes: the stop event, the resume event, `is_captcha(page)` at
the `should_check` computation, and `is_captcha(page)` again after the
`wait_for_load_state` call.  A run of the loop is embedded as the finite
list of these observations; a trace that ends before either exit condition
fires corresponds to a loop that is still polling. -/

structure CaptchaPollObs where
  stop : Bool
  resume : Bool
  captchaBefore : Bool
  captchaAfter : Bool
deriving DecidableEq, Repr

inductive CaptchaOutcome where
  | cleared
  | stopped
  | polling
deriving DecidableEq, Repr

/-- The `while not stop_event.is_set()` loop of `wait_captcha_resolved`:
`should_check` is the resume event or the captcha no longer being detected;
when a check passes and the captcha is (still) gone after the reload wait,
the function returns the page (`cleared`); when the stop event is observed
the function returns `None` (`stopped`). -/
def waitCaptchaLoop : List CaptchaPollObs → CaptchaOutcome
  | [] => .polling
  | obs :: rest =>
    if obs.stop then .stopped
    else if (obs.resume || !obs.captchaBefore) && !obs.captchaAfter then .cleared
    else waitCaptchaLoop rest

/-! ### `src/parser_search.py` — `parse_serp_cards`

One result card, as the DOM values the per-card extraction reads.  The
extraction chain itself (`_get_name_and_link`, `_extract_card_site`,
`_extract_card_url_from_card`, `_extract_phone_from_main_button`,
`_click_show_phone`, `_extract_from_extra_popup`) is embedded below as pure
functions of these observations. -/

structure SerpCard where
  /-- text of `.OrgCard-TitleText` -/
  nameText : String
  /-- `href` attribute of `a.OrgCard-Title` (empty when absent) -/
  titleHref : String
  /-- rating as produced by `_parse_rating` (DOM text parse, abstracted) -/
  rating : String
  /-- review count as produced by `_parse_reviews` -/
  reviews : String
  /-- verification badge detection result -/
  verified : Bool
  /-- text of the primary action button (`.OrgsListActions-FirstMainButton`) -/
  mainButtonText : String
  /-- `href` of the primary action link (the website candidate) -/
  mainHref : String
  /-- button text re-read after clicking the reveal-phone control -/
  showPhoneText : String
  /-- whether the extra-actions popup opened -/
  hasPopup : Bool
  /-- text of the popup's phone entry -/
  popupPhoneText : String
  /-- `href` of the popup's route link (empty when absent) -/
  popupRouteHref : String
  /-- `href` of the popup's site link (empty when absent) -/
  popupSiteHref : String
deriving DecidableEq, Repr

/-- The card fields stored into the produced row dict. -/
structure SerpRow where
  name : String
  rating : String
  reviews : String
  badge_blue : Bool
  phones : String
  website : String
  url : String
deriving DecidableEq, Repr

/-- `_get_name_and_link`: the canonicalized title link. -/
def serpTitleLink (c : SerpCard) : String :=
  if c.titleHref = "" then ""
  else _strip_profile_link (_normalize_href c.titleHref)

/-- `_extract_card_url_from_card`: oid of the raw title `href` (falling
back to the already-extracted link), rebuilt as a profile URL. -/
def serpCardUrl (c : SerpCard) : String :=
  let link := pyOrStr (_normalize_href c.titleHref) (serpTitleLink c)
  _build_profile_url (_extract_oid_from_href link)

/-- `_extract_phone_from_main_button`: phones in the primary button text. -/
def serpMainButtonPhones (c : SerpCard) : String :=
  if c.mainButtonText = "" then ""
  else joinCommaSpace (extract_phones c.mainButtonText)

/-- `_click_show_phone`: only a button whose text is the reveal-phone
control is clicked; the phones are read from the re-read text. -/
def serpShowPhonePhones (c : SerpCard) : String :=
  if !strIn "Показать телефон" c.mainButtonText then ""
  else joinCommaSpace (extract_phones c.showPhoneText)

/-- `_extract_from_extra_popup`: phone text, canonical route link and site
link of the extra-actions popup, when the popup opened. -/
def serpPopup (c : SerpCard) : String × String × String :=
  if !c.hasPopup then ("", "", "")
  else
    let phones :=
      if c.popupPhoneText = "" then ""
      else joinCommaSpace (extract_phones c.popupPhoneText)
    let profile :=
      if c.popupRouteHref = "" then ""
      else _strip_profile_link (_normalize_href c.popupRouteHref)
    let site := if c.popupSiteHref = "" then "" else _normalize_href c.popupSiteHref
    (phones, profile, site)

/-- The per-card body of `parse_serp_cards`: ordered phone fallback, the
website/profile fallbacks through the popup, and the final row fields. -/
def serpRowOfCard (c : SerpCard) : SerpRow :=
  let name := c.nameText
  let website0 := c.mainHref
  let card_url0 := serpCardUrl c
  let phones0 := pyOrStr (serpMainButtonPhones c) (serpShowPhonePhones c)
  let need_popup := phones0 = "" ∨ card_url0 = "" ∨ website0 = ""
  let popup := if need_popup then serpPopup c else ("", "", "")
  let phones := pyOrStr phones0 popup.1
  let profile_link := popup.2.1
  let website := pyOrStr website0 popup.2.2
  let card_url := if profile_link ≠ "" then profile_link else card_url0
  { name := name, rating := c.rating, reviews := c.reviews,
    badge_blue := c.verified, phones := phones, website := website,
    url := card_url }

/-- The dedup key computed for a produced row: the oid resolved from its
profile link, or the `name|reviews` composite. -/
def serpDedupeKey (row : SerpRow) : String :=
  let oid := if row.url ≠ "" then _extract_oid_from_href row.url else ""
  if oid ≠ "" then oid else row.name ++ "|" ++ row.reviews

/-- One iteration of the `for idx in range(total)` loop of
`parse_serp_cards`: the stop event observed at the top of the iteration,
the captcha state (with the poll observations of the resolution wait when a
captcha is showing), and the card's DOM values. -/
structure SerpStep where
  stopAtTop : Bool
  captcha : Option (List CaptchaPollObs)
  card : SerpCard
deriving Repr

/-- Did this iteration's captcha handling abort the run
(`wait_captcha_resolved` returned `None`)? -/
def serpCaptchaAborted (st : SerpStep) : Bool :=
  match st.captcha with
  | some obsList => waitCaptchaLoop obsList = .stopped
  | none => false

/-- The card loop of `parse_serp_cards` over a finite trace of iterations,
carrying the `seen_keys` set (the loop breaks on stop or on an aborted
captcha wait; a seen dedup key skips the card). -/
def serpParseGo : List SerpStep → List String → List SerpRow
  | [], _ => []
  | st :: rest, seen_keys =>
    if st.stopAtTop then []
    else if serpCaptchaAborted st then []
    else
      let row := serpRowOfCard st.card
      let key := serpDedupeKey row
      if key ∈ seen_keys then serpParseGo rest seen_keys
      else row :: serpParseGo rest (key :: seen_keys)

/-- `parse_serp_cards` with an initially empty `seen_keys` set. -/
def parse_serp_cards (steps : List SerpStep) : List SerpRow :=
  serpParseGo steps []

/-! ### `src/pacser_maps.py` — `_collect_organizations`

The panel strategy first enumerates all reachable identifiers
(`_collect_all_ids`), then repeatedly walks the visible list items, opening
and parsing the card of each not-yet-parsed identifier, scrolling between
rounds.  An iteration item is embedded as the identifier read from the DOM
plus the parse outcome of its detail card (`none` when the click or the
card wait failed, in which case the loop `continue`s without yielding). -/

structure MapsItem where
  orgId : String
  card : Option Organization
deriving Repr

/-- The inner `for index in range(count)` walk of one round of
`_collect_organizations`: skip empty, unknown and already-parsed ids; stop
with the limit-hit flag when a configured limit is reached; otherwise parse
and yield, adding the id to `parsed_ids`.  `limit = 0` models the false-y
`self.limit` (no limit).  Returns the yields (paired with their ids), the
updated `parsed_ids` and whether the limit return fired. -/
def mapsRoundGo (allIds : List String) (limit : Nat) :
    List MapsItem → List String →
      List (String × Organization) × List String × Bool
  | [], parsed => ([], parsed, false)
  | it :: rest, parsed =>
    if it.orgId = "" ∨ it.orgId ∉ allIds ∨ it.orgId ∈ parsed then
      mapsRoundGo allIds limit rest parsed
    else if limit ≠ 0 ∧ limit ≤ parsed.length then ([], parsed, true)
    else
      match it.card with
      | none => mapsRoundGo allIds limit rest parsed
      | some org =>
        let result := mapsRoundGo allIds limit rest (it.orgId :: parsed)
        ((it.orgId, org) :: result.1, result.2.1, result.2.2)

/-- The outer `while len(parsed_ids) < total` loop of
`_collect_organizations` over a finite trace of rounds (the scroll/stall
bookkeeping that ends the loop early is part of the trace being finite):
the limit is also checked at the top of each round. -/
def mapsCollectGo (allIds : List String) (limit : Nat) :
    List (List MapsItem) → List String → List (String × Organization)
  | [], _ => []
  | round :: rest, parsed =>
    if allIds.length ≤ parsed.length then []
    else if limit ≠ 0 ∧ limit ≤ parsed.length then []
    else
      let result := mapsRoundGo allIds limit round parsed
      result.1 ++ (if result.2.2 then [] else mapsCollectGo allIds limit rest result.2.1)

/-- `_collect_organizations` of `src/pacser_maps.py` starting from an empty
`parsed_ids` set. -/
def mapsCollectOrganizations (allIds : List String) (limit : Nat)
    (rounds : List (List MapsItem)) : List (String × Organization) :=
  mapsCollectGo allIds limit rounds []

/-! ### `src/yandex_maps_scraper.py` — `_collect_organizations`

The older panel variant walks the snippet list once after preloading; each
snippet's link is the dedup key (`self.seen_links`), the limit is checked
against the seen-set size before each item, and every processed item is
yielded after its details are parsed. -/

structure YmsItem where
  link : String
  org : Organization
deriving Repr

def ymsCollectGo (limit : Nat) : List YmsItem → List String → List Organization
  | [], _ => []
  | it :: rest, seen_links =>
    if limit ≠ 0 ∧ limit ≤ seen_links.length then []
    else if it.link = "" ∨ it.link ∈ seen_links then
      ymsCollectGo limit rest seen_links
    else it.org :: ymsCollectGo limit rest (it.link :: seen_links)

def ymsCollectOrganizations (limit : Nat) (items : List YmsItem) :
    List Organization :=
  ymsCollectGo limit items []

/-! ### `src/utils.py` — `RateLimiter`

Delays are modelled as exact rationals of seconds.  `wait_backoff` is
embedded as the pair (slept duration, successor state); `backoff_s` models
the private `_backoff_s` attribute.  The method sleeps
`max 0 backoff_s` (the sleep call is skipped when the delay is not
positive, which is the same zero wait) and then doubles the backoff,
clamped into `[backoff_base_s, backoff_max_s]`. -/

structure RateLimiter where
  min_delay_s : ℚ
  max_delay_s : ℚ
  backoff_base_s : ℚ
  backoff_max_s : ℚ
  backoff_s : ℚ
deriving Repr

/-- `RateLimiter.__init__`: the current backoff starts at the base. -/
def RateLimiter.init (min_delay_s max_delay_s backoff_base_s backoff_max_s : ℚ) :
    RateLimiter :=
  ⟨min_delay_s, max_delay_s, backoff_base_s, backoff_max_s, backoff_base_s⟩

/-- `RateLimiter.wait_backoff`: returns the duration handed to
`_wait_with_pause` together with the updated limiter. -/
def RateLimiter.wait_backoff (r : RateLimiter) : ℚ × RateLimiter :=
  (max 0 r.backoff_s,
    { r with backoff_s := min r.backoff_max_s (max r.backoff_base_s (r.backoff_s * 2)) })

/-- `RateLimiter.reset_backoff`. -/
def RateLimiter.reset_backoff (r : RateLimiter) : RateLimiter :=
  { r with backoff_s := r.backoff_base_s }

/-- `RateLimiter.maybe_batch_pause`: the duration handed to
`_wait_with_pause`, zero when no pause happens. -/
def RateLimiter.maybe_batch_pause (_r : RateLimiter) (index : Nat)
    (batch_every_n : Nat) (batch_pause_s : ℚ) : ℚ :=
  if batch_every_n = 0 then 0
  else if index % batch_every_n = 0 then max 0 batch_pause_s
  else 0

/-- `_rows_to_organizations` from `src/parser_search.py`: the produced rows
become `Organization` records; the phones string becomes the phone field
verbatim, a blue badge becomes the string "синяя". -/
def _rows_to_organizations (rows : List SerpRow) : List Organization :=
  rows.map (fun row =>
    { name := row.name, phone := row.phones,
      verified := if row.badge_blue then "синяя" else "",
      award := "", vk := "", telegram := "", whatsapp := "",
      website := row.website, card_url := row.url,
      rating := row.rating, rating_count := row.reviews })

/-! ## Proof layer -/

/-! ### Shape of `PHONE_RE` matches -/

theorem takeDigits_spec : ∀ (l : List Char) (n : Nat) (ds rest : List Char),
    takeDigits n l = some (ds, rest) →
    ds.length = n ∧ ∀ c ∈ ds, c.isDigit := by
  intro l
  induction l with
  | nil =>
    intro n ds rest h
    by_cases hn : n = 0 <;> simp [takeDigits, hn] at h
    rcases h with ⟨h1, _⟩
    subst h1
    simp [hn]
  | cons c cs ih =>
    intro n ds rest h
    by_cases hn : n = 0
    · simp [takeDigits, hn] at h
      rcases h with ⟨h1, _⟩
      subst h1
      simp [hn]
    · by_cases hd : c.isDigit
      · simp only [takeDigits, if_neg hn, if_pos hd] at h
        rcases Option.map_eq_some'.mp h with ⟨⟨ds', rest'⟩, htd, hf⟩
        obtain ⟨hlen, hdig⟩ := ih (n - 1) ds' rest' htd
        have hds : ds = c :: ds' := by
          simpa using congrArg Prod.fst hf.symm
        subst hds
        refine ⟨by simp [hlen]; omega, ?_⟩
        intro x hx
        rcases List.mem_cons.mp hx with hx | hx
        · subst hx; exact hd
        · exact hdig x hx
      · simp only [takeDigits, if_neg hn, if_neg hd] at h
        exact ih n ds rest h

theorem findPhonesAux_mem : ∀ (fuel : Nat) (l m : List Char),
    m ∈ findPhonesAux fuel l →
    m.length = 11 ∧ (m.head? = some '7' ∨ m.head? = some '8') ∧
      ∀ c ∈ m, c.isDigit := by
  intro fuel
  induction fuel with
  | zero =>
    intro l m h
    simp [findPhonesAux] at h
  | succ fuel ih =>
    intro l m h
    rcases l with _ | ⟨c, cs⟩
    · simp [findPhonesAux] at h
    · by_cases hplus : c = '+' ∧ cs.head? = some '7'
      · rcases htd : takeDigits 10 cs.tail with _ | ⟨ds, rest⟩
        · rw [findPhonesAux, if_pos hplus, htd] at h
          exact ih cs m h
        · rw [findPhonesAux, if_pos hplus, htd] at h
          rcases List.mem_cons.mp h with hm | hm
          · subst hm
            obtain ⟨hlen, hdig⟩ := takeDigits_spec cs.tail 10 ds rest htd
            refine ⟨by simp [hlen], Or.inl (by simp), ?_⟩
            intro x hx
            rcases List.mem_cons.mp hx with hx | hx
            · subst hx; decide
            · exact hdig x hx
          · exact ih rest m hm
      · by_cases h78 : c = '7' ∨ c = '8'
        · rcases htd : takeDigits 10 cs with _ | ⟨ds, rest⟩
          · rw [findPhonesAux, if_neg hplus, if_pos h78, htd] at h
            exact ih cs m h
          · rw [findPhonesAux, if_neg hplus, if_pos h78, htd] at h
            rcases List.mem_cons.mp h with hm | hm
            · subst hm
              obtain ⟨hlen, hdig⟩ := takeDigits_spec cs 10 ds rest htd
              refine ⟨by simp [hlen], ?_, ?_⟩
              · rcases h78 with h7 | h8
                · exact Or.inl (by simp [h7])
                · exact Or.inr (by simp [h8])
              · intro x hx
                rcases List.mem_cons.mp hx with hx | hx
                · subst hx
                  rcases h78 with h7 | h8
                  · rw [h7]; decide
                  · rw [h8]; decide
                · exact hdig x hx
            · exact ih rest m hm
        · rw [findPhonesAux, if_neg hplus, if_neg h78] at h
          exact ih cs m h

/-- Every match of `PHONE_RE`, normalized by the `extract_phones` body,
becomes a string of the invariant shape. -/
theorem normalizeMatch_shape (m : List Char)
    (hlen : m.length = 11) (hhead : m.head? = some '7' ∨ m.head? = some '8')
    (hdig : ∀ c ∈ m, c.isDigit) :
    ∃ p, normalizeMatch m = some p ∧ matchesPlusSevenPhone p = true := by
  rcases m with _ | ⟨c, ds⟩
  · simp at hlen
  · have hdslen : ds.length = 10 := by simpa using hlen
    have hdsdig : ∀ x ∈ ds, x.isDigit := fun x hx => hdig x (List.mem_cons_of_mem c hx)
    simp only [List.head?_cons, Option.some.injEq] at hhead
    rcases hhead with h7 | h8
    · subst h7
      refine ⟨String.mk ('+' :: '7' :: ds), ?_, ?_⟩
      · simp [normalizeMatch, hlen, hdslen]
      · simp [matchesPlusSevenPhone, hdslen, List.all_eq_true]
        exact hdsdig
    · subst h8
      refine ⟨String.mk ('+' :: '7' :: ds), ?_, ?_⟩
      · simp [normalizeMatch, hlen, hdslen]
      · simp [matchesPlusSevenPhone, hdslen, List.all_eq_true]
        exact hdsdig

theorem phoneFold_all : ∀ (ms : List (List Char)) (acc : List String),
    (∀ p ∈ acc, matchesPlusSevenPhone p = true) →
    (∀ m ∈ ms,
      m.length = 11 ∧ (m.head? = some '7' ∨ m.head? = some '8') ∧
        ∀ c ∈ m, c.isDigit) →
    ∀ p ∈ List.foldl phoneFoldStep acc ms, matchesPlusSevenPhone p = true := by
  intro ms
  induction ms with
  | nil => intro acc hacc _ p hp; exact hacc p hp
  | cons m rest ih =>
    intro acc hacc hshape p hp
    have hm := hshape m (List.mem_cons_self m rest)
    have hrest : ∀ x ∈ rest, x.length = 11 ∧
        (x.head? = some '7' ∨ x.head? = some '8') ∧ ∀ c ∈ x, c.isDigit :=
      fun x hx => hshape x (List.mem_cons_of_mem m hx)
    obtain ⟨q, hq, hqgood⟩ := normalizeMatch_shape m hm.1 hm.2.1 hm.2.2
    have hstep : ∀ x ∈ phoneFoldStep acc m, matchesPlusSevenPhone x = true := by
      intro x hx
      simp only [phoneFoldStep, hq] at hx
      by_cases hmem : q ∈ acc
      · rw [if_pos hmem] at hx; exact hacc x hx
      · rw [if_neg hmem] at hx
        rcases List.mem_append.mp hx with hx | hx
        · exact hacc x hx
        · rcases List.mem_singleton.mp hx with rfl
          exact hqgood
    simpa using ih (phoneFoldStep acc m) hstep hrest p hp

theorem phoneFold_nodup : ∀ (ms : List (List Char)) (acc : List String),
    acc.Nodup → (List.foldl phoneFoldStep acc ms).Nodup := by
  intro ms
  induction ms with
  | nil => intro acc h; simpa using h
  | cons m rest ih =>
    intro acc h
    have hstep : (phoneFoldStep acc m).Nodup := by
      simp only [phoneFoldStep]
      rcases normalizeMatch m with _ | q
      · exact h
      · simp only
        by_cases hmem : q ∈ acc
        · rw [if_pos hmem]; exact h
        · rw [if_neg hmem]
          simp [List.nodup_append, h, hmem]
    simpa using ih (phoneFoldStep acc m) hstep

/-- Every phone returned by `extract_phones` has the invariant shape. -/
theorem extract_phones_all (text : String) :
    ∀ p ∈ extract_phones text, matchesPlusSevenPhone p = true := by
  intro p hp
  by_cases h0 : text = ""
  · simp [extract_phones, h0] at hp
  · rw [extract_phones, if_neg h0] at hp
    refine phoneFold_all (findPhoneMatches text) [] (by simp) ?_ p hp
    intro m hm
    exact findPhonesAux_mem (text.data.length + 1) text.data m hm

/-- `extract_phones` returns no duplicates. -/
theorem extract_phones_nodup (text : String) : (extract_phones text).Nodup := by
  by_cases h0 : text = ""
  · simp [extract_phones, h0]
  · rw [extract_phones, if_neg h0]
    exact phoneFold_nodup (findPhoneMatches text) [] List.nodup_nil

/-- C10: every element of the list returned by `extract_phones` matches
`^\+7\d{10}$`, the returned list contains no duplicate entries, and an
input containing no substring matched by the phone pattern yields the
empty list. -/
theorem extract_phones_wellformed (text : String) :
    (∀ p ∈ extract_phones text, matchesPlusSevenPhone p = true) ∧
      (extract_phones text).Nodup ∧
      (findPhoneMatches text = [] → extract_phones text = []) := by
  refine ⟨extract_phones_all text, extract_phones_nodup text, ?_⟩
  intro hempty
  by_cases h0 : text = ""
  · simp [extract_phones, h0]
  · rw [extract_phones, if_neg h0, hempty]
    rfl

/-- Witness for `extract_phones_wellformed` at a concrete input. -/
theorem extract_phones_wellformed_witness :
    matchesPlusSevenPhone "+79123456789" = true ∧
      (extract_phones "тел. 8 (912) 345-67-89").Nodup :=
  ⟨(extract_phones_wellformed "тел. 8 (912) 345-67-89").1 "+79123456789" (by decide),
    (extract_phones_wellformed "тел. 8 (912) 345-67-89").2.1⟩

/-- `_normalize_phone` yields the empty string or a `+7`-normalized
eleven-digit phone. -/
theorem _normalize_phone_shape (raw : String) :
    _normalize_phone raw = "" ∨
      matchesPlusSevenPhone (_normalize_phone raw) = true := by
  unfold _normalize_phone
  by_cases h : (raw.data.filter Char.isDigit).length ≠ 11 ∨
      ((raw.data.filter Char.isDigit).head? ≠ some '7' ∧
        (raw.data.filter Char.isDigit).head? ≠ some '8')
  · left
    rw [if_pos h]
  · right
    push_neg at h
    obtain ⟨hlen, hor⟩ := h
    have hdig : ∀ c ∈ raw.data.filter Char.isDigit, c.isDigit :=
      fun c hc => (List.mem_filter.mp hc).2
    rcases hds : raw.data.filter Char.isDigit with _ | ⟨d, t⟩
    · rw [hds] at hlen; simp at hlen
    · rw [hds] at hlen hor hdig
      have htlen : t.length = 10 := by simpa using hlen
      have htdig : ∀ c ∈ t, c.isDigit :=
        fun c hc => hdig c (List.mem_cons_of_mem d hc)
      have hcond : ¬((d :: t).length ≠ 11 ∨
          ((d :: t).head? ≠ some '7' ∧ (d :: t).head? ≠ some '8')) := by
        push_neg
        exact ⟨hlen, hor⟩
      change matchesPlusSevenPhone
        (if (d :: t).length ≠ 11 ∨
            ((d :: t).head? ≠ some '7' ∧ (d :: t).head? ≠ some '8') then ""
         else if (d :: t).head? = some '8' then String.mk ('+' :: '7' :: (d :: t).tail)
         else String.mk ('+' :: d :: t)) = true
      rw [if_neg hcond]
      by_cases h8 : (d :: t).head? = some '8'
      · rw [if_pos h8]
        simp [matchesPlusSevenPhone, htlen, List.all_eq_true]
        exact htdig
      · have h7 : d = '7' := by
          have : (d :: t).head? = some '7' := by
            by_contra hc
            exact h8 (hor hc)
          simpa using this
        subst h7
        rw [if_neg h8]
        simp [matchesPlusSevenPhone, htlen, List.all_eq_true]
        exact htdig

/-- A SERP card whose primary action button text carries two phone
numbers, as the target page can render for an organization with several
published lines. -/
def serpCardTwoPhones : SerpCard :=
  { nameText := "Тестовая организация", titleHref := "/profile/abc123",
    rating := "4.5", reviews := "10", verified := false,
    mainButtonText := "+7 (123) 456-78-90, 8 (912) 345-67-89",
    mainHref := "https://example.com", showPhoneText := "", hasPopup := false,
    popupPhoneText := "", popupRouteHref := "", popupSiteHref := "" }

/-- C1 counterexample: the SERP-carousel strategy joins multiple extracted
phones with a comma, so the produced record's phone field is non-empty yet
does not match `^\+7\d{10}$`. -/
theorem serp_phone_field_counterexample :
    (_rows_to_organizations
        (parse_serp_cards [⟨false, none, serpCardTwoPhones⟩])).map
        Organization.phone = ["+71234567890, +79123456789"] ∧
      "+71234567890, +79123456789" ≠ "" ∧
      matchesPlusSevenPhone "+71234567890, +79123456789" = false := by
  refine ⟨by decide, by decide, by decide⟩

/-- C1, amended: a maps-panel record's phone is empty or matches
`^\+7\d{10}$`; a SERP-carousel record's phone field is the comma-joined
list of the extracted phones, each of which matches `^\+7\d{10}$`. -/
theorem phone_field_amended :
    (∀ raw, _normalize_phone raw = "" ∨
      matchesPlusSevenPhone (_normalize_phone raw) = true) ∧
      (∀ text p, p ∈ extract_phones text → matchesPlusSevenPhone p = true) :=
  ⟨_normalize_phone_shape, fun text p hp => extract_phones_all text p hp⟩

/-- Witness for `phone_field_amended` at concrete inputs. -/
theorem phone_field_amended_witness :
    (_normalize_phone "8 (912) 345-67-89" = "" ∨
      matchesPlusSevenPhone (_normalize_phone "8 (912) 345-67-89") = true) ∧
      matchesPlusSevenPhone "+79123456789" = true :=
  ⟨phone_field_amended.1 "8 (912) 345-67-89",
    phone_field_amended.2 "тел. 89123456789" "+79123456789" (by decide)⟩

/-! ### Filter pipeline fixtures and theorems -/

/-- A test record with the given name, phone and rating fields; all other
fields are empty, as `_get_attr` yields for missing attributes. -/
def mkTestRow (nm ph rt : String) : Row := fun f =>
  if f = "name" then nm
  else if f = "phone" then ph
  else if f = "rating" then rt
  else ""

/-- All filter options disabled. -/
def filtersOff : PotentialFilters :=
  { white_list := "", stop_words := "", exclude_no_phone := false,
    require_checkmark := false, exclude_good_place := false,
    exclude_noncommercial := false, max_rating := none }

def settingsStopSchool : Settings :=
  ⟨{ filtersOff with stop_words := "школа" }⟩

def settingsCoffeeSchool : Settings :=
  ⟨{ filtersOff with white_list := "кофе", stop_words := "школа" }⟩

def settingsMax47 : Settings :=
  ⟨{ filtersOff with max_rating := some (mkRat 47 10) }⟩

def rowPrivateSchool : Row := mkTestRow "Частная школа Гармония" "" ""

def rowCoffeeSchool : Row := mkTestRow "Кофе и школа" "" ""

def rowRating48 : Row := mkTestRow "Кофейня" "" "4.8"

def rowRatingEmpty : Row := mkTestRow "Кофейня" "" ""

def rowRatingUnparsable : Row := mkTestRow "Кофейня" "" "нет данных"

/-- C4: a record whose normalized name matches the private-institution
exception is not rejected by the stop-word rule — concretely,
`stop_words=["школа"]` with all other options disabled passes
"Частная школа Гармония"; in general, for a record matching the exception
the outcome is the same as with no stop words configured at all. -/
theorem private_exception_overrides_stop_words :
    passes_potential_filters rowPrivateSchool settingsStopSchool = true ∧
      ∀ (row : Row) (s : Settings),
        is_private_exception (_normalize_text (_get_attr row "name")) = true →
        passes_potential_filters row s =
          passes_potential_filters row
            ⟨{ s.potential_filters with stop_words := "" }⟩ := by
  constructor
  · decide
  · intro row s h
    simp only [passes_potential_filters, _get_attr] at h ⊢
    simp [h]

/-- Witness for the general part of
`private_exception_overrides_stop_words` at a concrete record. -/
theorem private_exception_overrides_stop_words_witness :
    passes_potential_filters rowPrivateSchool settingsStopSchool =
      passes_potential_filters rowPrivateSchool
        ⟨{ settingsStopSchool.potential_filters with stop_words := "" }⟩ :=
  private_exception_overrides_stop_words.2 rowPrivateSchool settingsStopSchool
    (by decide)

/-- C5: the rules run in order and the first failure rejects — a firing
stop-word rule (stop words configured, a hit on the normalized name or the
school-abbreviation pattern, no private-institution exception) makes
`passes_potential_filters` false whatever the later rules would say;
concretely, `white_list=["кофе"]`, `stop_words=["школа"]` rejects
"Кофе и школа" despite the white-list match. -/
theorem stop_word_rule_rejects_in_order :
    passes_potential_filters rowCoffeeSchool settingsCoffeeSchool = false ∧
      ∀ (row : Row) (s : Settings),
        (_parse_list s.potential_filters.stop_words).map _normalize_text ≠ [] →
        (((_parse_list s.potential_filters.stop_words).map _normalize_text).any
            (fun word => strIn word (_normalize_text (_get_attr row "name"))) ||
          has_school_abbreviation (_normalize_text (_get_attr row "name"))) = true →
        is_private_exception (_normalize_text (_get_attr row "name")) = false →
        passes_potential_filters row s = false := by
  constructor
  · decide
  · intro row s hne hhit hexc
    have hempty :
        ((_parse_list s.potential_filters.stop_words).map _normalize_text).isEmpty =
          false := by
      rcases hl : (_parse_list s.potential_filters.stop_words).map _normalize_text
      · exact absurd hl hne
      · rfl
    simp only [passes_potential_filters, _get_attr] at hhit hexc ⊢
    by_cases hwhite :
        (!(_parse_list s.potential_filters.white_list).isEmpty &&
          !(_parse_list s.potential_filters.white_list).any
            (fun word => strIn word (_normalize_text (row "name")))) = true
    · rw [if_pos hwhite]
    · rw [if_neg hwhite]
      have hcond :
          (!((_parse_list s.potential_filters.stop_words).map _normalize_text).isEmpty &&
            (((_parse_list s.potential_filters.stop_words).map _normalize_text).any
                (fun word => strIn word (_normalize_text (row "name"))) ||
              has_school_abbreviation (_normalize_text (row "name"))) &&
            !is_private_exception (_normalize_text (row "name"))) = true := by
        rw [hempty, hhit, hexc]
        rfl
      rw [if_pos hcond]

/-- Witness for the general part of `stop_word_rule_rejects_in_order`. -/
theorem stop_word_rule_rejects_in_order_witness :
    passes_potential_filters rowCoffeeSchool settingsCoffeeSchool = false :=
  stop_word_rule_rejects_in_order.2 rowCoffeeSchool settingsCoffeeSchool
    (by decide) (by decide) (by decide)

/-- C6: the rating rule fires only when `max_rating` is configured and the
record's rating parses — rating `4.8` against `max_rating = 4.7` rejects,
while an empty or unparsable rating is never rejected by the rating rule
(the outcome does not depend on `max_rating` at all when the rating does
not parse). -/
theorem rating_rule_requires_parsed_rating :
    passes_potential_filters rowRating48 settingsMax47 = false ∧
      passes_potential_filters rowRatingEmpty settingsMax47 = true ∧
      passes_potential_filters rowRatingUnparsable settingsMax47 = true ∧
      ∀ (row : Row) (pf : PotentialFilters) (m₁ m₂ : Option ℚ),
        _get_rating row = none →
        passes_potential_filters row ⟨{ pf with max_rating := m₁ }⟩ =
          passes_potential_filters row ⟨{ pf with max_rating := m₂ }⟩ := by
  refine ⟨by decide, by decide, by decide, ?_⟩
  intro row pf m₁ m₂ h
  rcases m₁ <;> rcases m₂ <;> simp [passes_potential_filters, h]

/-- Witness for the general part of `rating_rule_requires_parsed_rating`. -/
theorem rating_rule_requires_parsed_rating_witness :
    passes_potential_filters rowRatingUnparsable
        ⟨{ filtersOff with max_rating := some (mkRat 47 10) }⟩ =
      passes_potential_filters rowRatingUnparsable
        ⟨{ filtersOff with max_rating := none }⟩ :=
  rating_rule_requires_parsed_rating.2.2.2 rowRatingUnparsable filtersOff
    (some (mkRat 47 10)) none (by decide)

/-- C9: `passes_potential_filters` reads a record only through its eight
observable fields — two records agreeing on those fields (whatever else
they carry) classify identically under any settings, and the result is a
pure function of (record fields, settings). -/
theorem passes_depends_only_on_fields :
    ∀ (r₁ r₂ : Row) (s : Settings),
      r₁ "name" = r₂ "name" → r₁ "phone" = r₂ "phone" →
      r₁ "phones" = r₂ "phones" → r₁ "check_mark" = r₂ "check_mark" →
      r₁ "verified" = r₂ "verified" → r₁ "good_place" = r₂ "good_place" →
      r₁ "award" = r₂ "award" → r₁ "rating" = r₂ "rating" →
      passes_potential_filters r₁ s = passes_potential_filters r₂ s := by
  intro r₁ r₂ s h1 h2 h3 h4 h5 h6 h7 h8
  simp only [passes_potential_filters, _get_attr, _get_rating, is_noncommercial,
    h1, h2, h3, h4, h5, h6, h7, h8]

/-- Witness for `passes_depends_only_on_fields`: two representations that
agree on the observable fields but differ elsewhere. -/
theorem passes_depends_only_on_fields_witness :
    passes_potential_filters (fun _ => "") settingsStopSchool =
      passes_potential_filters
        (fun f => if f = "unread_field" then "junk" else "") settingsStopSchool :=
  passes_depends_only_on_fields (fun _ => "")
    (fun f => if f = "unread_field" then "junk" else "") settingsStopSchool
    (by decide) (by decide) (by decide) (by decide) (by decide) (by decide)
    (by decide) (by decide)

/-- C7: `wait_backoff` sleeps the current backoff and then clamps the
doubled value into `[backoff_base_s, backoff_max_s]`; from a fresh limiter
two consecutive calls sleep `backoff_base_s` and then
`min (backoff_base_s * 2) backoff_max_s`, and `reset_backoff` restores the
base. -/
theorem wait_backoff_doubles_and_resets (minD maxD base maxB : ℚ)
    (hbase : 0 ≤ base) (hmax : 0 ≤ maxB) :
    (∀ r : RateLimiter,
      r.wait_backoff =
        (max 0 r.backoff_s,
          { r with backoff_s := min r.backoff_max_s (max r.backoff_base_s (r.backoff_s * 2)) })) ∧
      (RateLimiter.init minD maxD base maxB).wait_backoff.1 = base ∧
      ((RateLimiter.init minD maxD base maxB).wait_backoff.2).wait_backoff.1 =
        min (base * 2) maxB ∧
      ∀ r : RateLimiter, r.reset_backoff.backoff_s = r.backoff_base_s := by
  refine ⟨fun r => rfl, ?_, ?_, fun r => rfl⟩
  · show max 0 base = base
    exact max_eq_right hbase
  · show max 0 (min maxB (max base (base * 2))) = min (base * 2) maxB
    have h2 : max base (base * 2) = base * 2 := max_eq_right (by linarith)
    rw [h2, min_comm maxB (base * 2)]
    exact max_eq_right (le_min (by linarith) hmax)

/-- Witness for `wait_backoff_doubles_and_resets` at the default limiter
configuration (base 2s, cap 60s). -/
theorem wait_backoff_doubles_and_resets_witness :
    ((RateLimiter.init 0 0 2 60).wait_backoff.2).wait_backoff.1 =
      min ((2 : ℚ) * 2) 60 :=
  (wait_backoff_doubles_and_resets 0 0 2 60 (by norm_num) (by norm_num)).2.2.1

/-! ### Dedup and limit invariants of the collectors -/

theorem serpParseGo_keys : ∀ (steps : List SerpStep) (seen : List String),
    ((serpParseGo steps seen).map serpDedupeKey).Nodup ∧
      ∀ k ∈ (serpParseGo steps seen).map serpDedupeKey, k ∉ seen := by
  intro steps
  induction steps with
  | nil => intro seen; simp [serpParseGo]
  | cons st rest ih =>
    intro seen
    by_cases hstop : st.stopAtTop
    · simp [serpParseGo, hstop]
    · by_cases hcap : serpCaptchaAborted st = true
      · simp [serpParseGo, hstop, hcap]
      · by_cases hmem : serpDedupeKey (serpRowOfCard st.card) ∈ seen
        · simpa [serpParseGo, hstop, hcap, hmem] using ih seen
        · obtain ⟨hnd, hnotin⟩ := ih (serpDedupeKey (serpRowOfCard st.card) :: seen)
          have hlist : serpParseGo (st :: rest) seen =
              serpRowOfCard st.card ::
                serpParseGo rest (serpDedupeKey (serpRowOfCard st.card) :: seen) := by
            simp [serpParseGo, hstop, hcap, hmem]
          rw [hlist]
          constructor
          · rw [List.map_cons, List.nodup_cons]
            refine ⟨?_, hnd⟩
            intro hk
            exact (hnotin _ hk) (List.mem_cons_self _ _)
          · intro k hk
            rw [List.map_cons] at hk
            rcases List.mem_cons.mp hk with hk' | hk'
            · rw [hk']; exact hmem
            · intro hks
              exact (hnotin k hk') (List.mem_cons_of_mem _ hks)

theorem mapsRoundGo_parsed (allIds : List String) (limit : Nat) :
    ∀ (round : List MapsItem) (parsed : List String),
      (mapsRoundGo allIds limit round parsed).2.1 =
        ((mapsRoundGo allIds limit round parsed).1.map Prod.fst).reverse ++ parsed := by
  intro round
  induction round with
  | nil => intro parsed; simp [mapsRoundGo]
  | cons it rest ih =>
    intro parsed
    by_cases hskip : it.orgId = "" ∨ it.orgId ∉ allIds ∨ it.orgId ∈ parsed
    · simpa [mapsRoundGo, hskip] using ih parsed
    · by_cases hlim : limit ≠ 0 ∧ limit ≤ parsed.length
      · simp [mapsRoundGo, hskip, hlim]
      · rcases hcard : it.card with _ | org
        · simpa [mapsRoundGo, hskip, hlim, hcard] using ih parsed
        · have := ih (it.orgId :: parsed)
          simp only [mapsRoundGo, if_neg hskip, if_neg hlim, hcard]
          simp only [List.map_cons, List.reverse_cons, List.append_assoc,
            List.singleton_append]
          exact this

theorem mapsRoundGo_nodup (allIds : List String) (limit : Nat) :
    ∀ (round : List MapsItem) (parsed : List String), parsed.Nodup →
      (mapsRoundGo allIds limit round parsed).2.1.Nodup := by
  intro round
  induction round with
  | nil => intro parsed h; simpa [mapsRoundGo] using h
  | cons it rest ih =>
    intro parsed h
    by_cases hskip : it.orgId = "" ∨ it.orgId ∉ allIds ∨ it.orgId ∈ parsed
    · simpa [mapsRoundGo, hskip] using ih parsed h
    · by_cases hlim : limit ≠ 0 ∧ limit ≤ parsed.length
      · simpa [mapsRoundGo, hskip, hlim] using h
      · rcases hcard : it.card with _ | org
        · simpa [mapsRoundGo, hskip, hlim, hcard] using ih parsed h
        · have hnotin : it.orgId ∉ parsed := by
            push_neg at hskip
            exact hskip.2.2
          have := ih (it.orgId :: parsed) (List.nodup_cons.mpr ⟨hnotin, h⟩)
          simpa [mapsRoundGo, if_neg hskip, if_neg hlim, hcard] using this

theorem mapsCollectGo_keys (allIds : List String) (limit : Nat) :
    ∀ (rounds : List (List MapsItem)) (parsed : List String), parsed.Nodup →
      ((mapsCollectGo allIds limit rounds parsed).map Prod.fst).Nodup ∧
        ∀ id ∈ (mapsCollectGo allIds limit rounds parsed).map Prod.fst,
          id ∉ parsed := by
  intro rounds
  induction rounds with
  | nil => intro parsed _; simp [mapsCollectGo]
  | cons round rest ih =>
    intro parsed h
    by_cases htot : allIds.length ≤ parsed.length
    · simp [mapsCollectGo, htot]
    · by_cases hlim : limit ≠ 0 ∧ limit ≤ parsed.length
      · simp [mapsCollectGo, htot, hlim]
      · have hp := mapsRoundGo_parsed allIds limit round parsed
        have hpnd0 := mapsRoundGo_nodup allIds limit round parsed h
        have hpnd := hpnd0
        rw [hp, List.nodup_append] at hpnd
        obtain ⟨hrevnd, _, hdisj⟩ := hpnd
        have hysnd : ((mapsRoundGo allIds limit round parsed).1.map Prod.fst).Nodup :=
          List.nodup_reverse.mp hrevnd
        by_cases hstop : (mapsRoundGo allIds limit round parsed).2.2 = true
        · have hlist : mapsCollectGo allIds limit (round :: rest) parsed =
              (mapsRoundGo allIds limit round parsed).1 := by
            simp [mapsCollectGo, htot, hlim, hstop]
          rw [hlist]
          refine ⟨hysnd, ?_⟩
          intro id hid
          exact hdisj (List.mem_reverse.mpr hid)
        · obtain ⟨ihnd, ihnotin⟩ := ih (mapsRoundGo allIds limit round parsed).2.1 hpnd0
          have hlist : mapsCollectGo allIds limit (round :: rest) parsed =
              (mapsRoundGo allIds limit round parsed).1 ++
                mapsCollectGo allIds limit rest
                  (mapsRoundGo allIds limit round parsed).2.1 := by
            simp [mapsCollectGo, htot, hlim, hstop]
          rw [hlist, List.map_append]
          constructor
          · rw [List.nodup_append]
            refine ⟨hysnd, ihnd, ?_⟩
            intro a ha hb
            have hap : a ∈ (mapsRoundGo allIds limit round parsed).2.1 := by
              rw [hp]
              exact List.mem_append.mpr (Or.inl (List.mem_reverse.mpr ha))
            exact (ihnotin a hb) hap
          · intro id hid
            rcases List.mem_append.mp hid with hid | hid
            · exact hdisj (List.mem_reverse.mpr hid)
            · intro hidp
              have hip : id ∈ (mapsRoundGo allIds limit round parsed).2.1 := by
                rw [hp]
                exact List.mem_append.mpr (Or.inr hidp)
              exact (ihnotin id hid) hip

/-- C2: within one collection run no two yielded records share a dedup
key — the keys of the rows produced by the SERP-carousel loop are pairwise
distinct, and so are the canonical identifiers of the organizations yielded
by the maps-panel loop. -/
theorem dedupe_keys_unique :
    (∀ steps : List SerpStep,
      ((parse_serp_cards steps).map serpDedupeKey).Nodup) ∧
      ∀ (allIds : List String) (limit : Nat) (rounds : List (List MapsItem)),
        ((mapsCollectOrganizations allIds limit rounds).map Prod.fst).Nodup :=
  ⟨fun steps => (serpParseGo_keys steps []).1,
    fun allIds limit rounds =>
      (mapsCollectGo_keys allIds limit rounds [] List.nodup_nil).1⟩

theorem mapsRoundGo_limit (allIds : List String) (limit : Nat)
    (hlnz : limit ≠ 0) :
    ∀ (round : List MapsItem) (parsed : List String), parsed.length ≤ limit →
      (mapsRoundGo allIds limit round parsed).2.1.length ≤ limit := by
  intro round
  induction round with
  | nil => intro parsed h; simpa [mapsRoundGo] using h
  | cons it rest ih =>
    intro parsed h
    by_cases hskip : it.orgId = "" ∨ it.orgId ∉ allIds ∨ it.orgId ∈ parsed
    · simpa [mapsRoundGo, hskip] using ih parsed h
    · by_cases hlim : limit ≠ 0 ∧ limit ≤ parsed.length
      · simpa [mapsRoundGo, hskip, hlim] using h
      · rcases hcard : it.card with _ | org
        · simpa [mapsRoundGo, hskip, hlim, hcard] using ih parsed h
        · have hlt : parsed.length < limit := by
            rcases Nat.lt_or_ge parsed.length limit with hx | hx
            · exact hx
            · exact absurd ⟨hlnz, hx⟩ hlim
          have hnext : (it.orgId :: parsed).length ≤ limit := by
            simpa using hlt
          simpa [mapsRoundGo, if_neg hskip, if_neg hlim, hcard] using
            ih (it.orgId :: parsed) hnext

theorem mapsCollectGo_limit (allIds : List String) (limit : Nat)
    (hlnz : limit ≠ 0) :
    ∀ (rounds : List (List MapsItem)) (parsed : List String),
      parsed.length ≤ limit →
      (mapsCollectGo allIds limit rounds parsed).length + parsed.length ≤ limit := by
  intro rounds
  induction rounds with
  | nil => intro parsed h; simpa [mapsCollectGo] using h
  | cons round rest ih =>
    intro parsed h
    by_cases htot : allIds.length ≤ parsed.length
    · simpa [mapsCollectGo, htot] using h
    · by_cases hlim : limit ≠ 0 ∧ limit ≤ parsed.length
      · simpa [mapsCollectGo, htot, hlim] using h
      · have hp := mapsRoundGo_parsed allIds limit round parsed
        have hplen : (mapsRoundGo allIds limit round parsed).2.1.length =
            (mapsRoundGo allIds limit round parsed).1.length + parsed.length := by
          rw [hp]
          simp
        have hple : (mapsRoundGo allIds limit round parsed).2.1.length ≤ limit :=
          mapsRoundGo_limit allIds limit hlnz round parsed h
        by_cases hstop : (mapsRoundGo allIds limit round parsed).2.2 = true
        · have hlist : mapsCollectGo allIds limit (round :: rest) parsed =
              (mapsRoundGo allIds limit round parsed).1 := by
            simp [mapsCollectGo, htot, hlim, hstop]
          rw [hlist]
          omega
        · have hlist : mapsCollectGo allIds limit (round :: rest) parsed =
              (mapsRoundGo allIds limit round parsed).1 ++
                mapsCollectGo allIds limit rest
                  (mapsRoundGo allIds limit round parsed).2.1 := by
            simp [mapsCollectGo, htot, hlim, hstop]
          have hrest := ih (mapsRoundGo allIds limit round parsed).2.1 hple
          rw [hlist, List.length_append]
          omega

theorem ymsCollectGo_limit (limit : Nat) (hlnz : limit ≠ 0) :
    ∀ (items : List YmsItem) (seen : List String), seen.length ≤ limit →
      (ymsCollectGo limit items seen).length + seen.length ≤ limit := by
  intro items
  induction items with
  | nil => intro seen h; simpa [ymsCollectGo] using h
  | cons it rest ih =>
    intro seen h
    by_cases hlim : limit ≠ 0 ∧ limit ≤ seen.length
    · simpa [ymsCollectGo, hlim] using h
    · have hlt : seen.length < limit := by
        rcases Nat.lt_or_ge seen.length limit with hx | hx
        · exact hx
        · exact absurd ⟨hlnz, hx⟩ hlim
      by_cases hskip : it.link = "" ∨ it.link ∈ seen
      · simpa [ymsCollectGo, hlim, hskip] using ih seen h
      · have hrest := ih (it.link :: seen) (by simpa using hlt)
        have hlist : ymsCollectGo limit (it :: rest) seen =
            it.org :: ymsCollectGo limit rest (it.link :: seen) := by
          simp [ymsCollectGo, hlim, hskip]
        rw [hlist]
        simp only [List.length_cons]
        simp only [List.length_cons] at hrest
        omega

/-- C3: a run configured with a (truthy) limit `L` yields at most `L`
records, in both panel collectors. -/
theorem limit_bounds_yields (L : Nat) (hL : L ≠ 0) :
    (∀ (allIds : List String) (rounds : List (List MapsItem)),
      (mapsCollectOrganizations allIds L rounds).length ≤ L) ∧
      ∀ items : List YmsItem, (ymsCollectOrganizations L items).length ≤ L := by
  constructor
  · intro allIds rounds
    have := mapsCollectGo_limit allIds L hL rounds [] (by simp)
    simpa [mapsCollectOrganizations] using this
  · intro items
    have := ymsCollectGo_limit L hL items [] (by simp)
    simpa [ymsCollectOrganizations] using this

/-- Witness for `limit_bounds_yields` with limit 1 and a two-card trace. -/
theorem limit_bounds_yields_witness :
    (mapsCollectOrganizations ["a", "b"] 1
        [[⟨"a", some {}⟩, ⟨"b", some {}⟩]]).length ≤ 1 :=
  (limit_bounds_yields 1 (by decide)).1 ["a", "b"]
    [[⟨"a", some {}⟩, ⟨"b", some {}⟩]]

/-- C8: the captcha resolution wait returns `None` exactly on the stop
signal — a trace whose first observation has the stop event set returns
`None` immediately; a `stopped` outcome implies some poll observed the stop
event; a `cleared` outcome implies some poll actually saw the captcha gone
(with the stop event unset), never the stop signal; and when a card
iteration's captcha wait is aborted, the card loop returns exactly the rows
produced before that iteration. -/
theorem captcha_wait_stop_aborts :
    (∀ (e : CaptchaPollObs) (tr : List CaptchaPollObs), e.stop = true →
      waitCaptchaLoop (e :: tr) = .stopped) ∧
      (∀ tr : List CaptchaPollObs, waitCaptchaLoop tr = .stopped →
        ∃ e ∈ tr, e.stop = true) ∧
      (∀ tr : List CaptchaPollObs, waitCaptchaLoop tr = .cleared →
        ∃ e ∈ tr, e.stop = false ∧ (e.resume = true ∨ e.captchaBefore = false) ∧
          e.captchaAfter = false) ∧
      ∀ (pre rest : List SerpStep) (st : SerpStep) (seen : List String),
        serpCaptchaAborted st = true →
        serpParseGo (pre ++ st :: rest) seen = serpParseGo pre seen := by
  refine ⟨?_, ?_, ?_, ?_⟩
  · intro e tr he
    simp [waitCaptchaLoop, he]
  · intro tr
    induction tr with
    | nil => intro h; simp [waitCaptchaLoop] at h
    | cons e rest ih =>
      intro h
      by_cases hstop : e.stop = true
      · exact ⟨e, List.mem_cons_self e rest, hstop⟩
      · rw [waitCaptchaLoop, if_neg (by simpa using hstop)] at h
        by_cases hchk : ((e.resume || !e.captchaBefore) && !e.captchaAfter) = true
        · rw [if_pos hchk] at h
          simp at h
        · rw [if_neg hchk] at h
          obtain ⟨x, hx, hxs⟩ := ih h
          exact ⟨x, List.mem_cons_of_mem e hx, hxs⟩
  · intro tr
    induction tr with
    | nil => intro h; simp [waitCaptchaLoop] at h
    | cons e rest ih =>
      intro h
      by_cases hstop : e.stop = true
      · rw [waitCaptchaLoop, if_pos hstop] at h
        simp at h
      · rw [waitCaptchaLoop, if_neg (by simpa using hstop)] at h
        by_cases hchk : ((e.resume || !e.captchaBefore) && !e.captchaAfter) = true
        · rw [if_pos hchk] at h
          rcases (Bool.and_eq_true _ _).mp hchk with ⟨hor, hafter⟩
          refine ⟨e, List.mem_cons_self e rest, ?_, ?_, ?_⟩
          · simpa using hstop
          · rcases (Bool.or_eq_true _ _).mp hor with hx | hx
            · exact Or.inl hx
            · exact Or.inr (by simpa using hx)
          · simpa using hafter
        · rw [if_neg hchk] at h
          obtain ⟨x, hx, hxp⟩ := ih h
          exact ⟨x, List.mem_cons_of_mem e hx, hxp⟩
  · intro pre
    induction pre with
    | nil =>
      intro rest st seen habort
      by_cases hstop : st.stopAtTop
      · simp [serpParseGo, hstop]
      · simp [serpParseGo, hstop, habort]
    | cons p ps ih =>
      intro rest st seen habort
      by_cases hstop : p.stopAtTop
      · simp [serpParseGo, hstop]
      · by_cases hcap : serpCaptchaAborted p = true
        · simp [serpParseGo, hstop, hcap]
        · by_cases hmem : serpDedupeKey (serpRowOfCard p.card) ∈ seen
          · simpa [serpParseGo, hstop, hcap, hmem] using ih rest st seen habort
          · simpa [serpParseGo, hstop, hcap, hmem] using
              ih rest st (serpDedupeKey (serpRowOfCard p.card) :: seen) habort

/-- Witness for `captcha_wait_stop_aborts`: a one-card run whose captcha
wait observes the stop signal yields nothing. -/
theorem captcha_wait_stop_aborts_witness :
    serpParseGo
        ([] ++ ⟨false, some [⟨true, false, true, true⟩], serpCardTwoPhones⟩ :: [])
        [] = serpParseGo [] [] :=
  captcha_wait_stop_aborts.2.2.2 []  []
    ⟨false, some [⟨true, false, true, true⟩], serpCardTwoPhones⟩ [] (by decide)
